import Mathlib

/-!
Verification of the real-time audio/speech pipeline of the Kubik voice
assistant (Asistente-Virtual-Kubik).  The Python sources under `src/` are
shallowly embedded as Lean definitions: pure per-frame logic becomes Lean
functions, the stateful detectors become explicit state-passing functions,
and the external inference engines (WebRTC VAD, Porcupine, Vosk) are
abstracted as function parameters or environment records since their
classification behaviour is opaque to this repository.

Machine integers: the audio samples are Python ints bounded by int16; none
of the verified logic depends on overflow, so samples are modelled as `Int`
and counters as `Nat`.
-/

set_option autoImplicit false

namespace Kubik

/-! ## VAD construction (src/audio/vad.py, `VAD.__init__`)

`silence_duration` is a float in seconds in the source; the derived
threshold is `int(silence_duration * 1000 / frame_duration_ms)`, a floor
division of milliseconds.  We model the duration directly in milliseconds
as a natural number, so the threshold is Nat floor division. -/

/-- Configuration and counter state of a `VAD` instance, mirroring the
fields set by `VAD.__init__`. -/
structure VADConfig where
  sample_rate : Nat
  aggressiveness : Int
  frame_duration_ms : Nat
  silence_duration_ms : Nat
  frame_size : Nat
  speech_frames : Nat
  silence_frames : Nat
  silence_threshold : Nat
  deriving Repr, DecidableEq

/-- Valid frame durations accepted by `VAD.__init__` (`VALID_FRAME_DURATIONS`). -/
def VALID_FRAME_DURATIONS : List Nat := [10, 20, 30]

/-- Valid sample rates accepted by `VAD.__init__`. -/
def VALID_SAMPLE_RATES : List Nat := [8000, 16000, 32000, 48000]

/-- Embedding of `VAD.__init__`: the three `raise ValueError` guards (the
spec calls these `ConfigError`), then the derived fields.  The source
checks sample rate first, then frame duration, then aggressiveness. -/
def vad_init (sample_rate : Nat) (aggressiveness : Int)
    (frame_duration_ms : Nat) (silence_duration_ms : Nat) :
    Except String VADConfig :=
  if sample_rate ∉ VALID_SAMPLE_RATES then
    .error "Invalid sample rate"
  else if frame_duration_ms ∉ VALID_FRAME_DURATIONS then
    .error "Invalid frame duration"
  else if ¬ (0 ≤ aggressiveness ∧ aggressiveness ≤ 3) then
    .error "Invalid aggressiveness"
  else
    .ok {
      sample_rate := sample_rate
      aggressiveness := aggressiveness
      frame_duration_ms := frame_duration_ms
      silence_duration_ms := silence_duration_ms
      frame_size := sample_rate * frame_duration_ms / 1000
      speech_frames := 0
      silence_frames := 0
      silence_threshold := silence_duration_ms / frame_duration_ms
    }

/-! ## Per-frame classification (`VAD.is_speech`)

`webrtcvad.Vad.is_speech` is an external engine; it is abstracted as a
function parameter `classify`.  What the source adds around it is the
pad-or-truncate policy, which we embed. -/

/-- Pad-or-truncate policy of `VAD.is_speech`: frames shorter than the
expected size are zero-padded on the right, longer ones truncated. -/
def fitFrame (frame_size : Nat) (chunk : List Int) : List Int :=
  if chunk.length < frame_size then
    chunk ++ List.replicate (frame_size - chunk.length) 0
  else
    chunk.take frame_size

/-- Embedding of `VAD.is_speech`: fit the chunk to `frame_size`, then ask
the external classifier.  (The source's catch-all returning `False` on a
classifier exception is not modelled: the abstract classifier is total.) -/
def is_speech (classify : List Int → Bool) (frame_size : Nat)
    (chunk : List Int) : Bool :=
  classify (fitFrame frame_size chunk)

/-! ## End-of-speech detection (`VAD.detect_speech_end` / `VAD.reset`)

The mutable counters `speech_frames` / `silence_frames` become an explicit
state record. -/

/-- The counter state mutated by `detect_speech_end` and cleared by
`reset`. -/
structure VadState where
  speech_frames : Nat
  silence_frames : Nat
  deriving Repr, DecidableEq

/-- Embedding of `VAD.reset`: zero both counters. -/
def vadReset : VadState := ⟨0, 0⟩

/-- Embedding of `VAD.detect_speech_end` given the classification `isSp`
of the current chunk: bump the counters, then fire (and reset) iff there
was speech before and the trailing silence has reached the threshold. -/
def detect_speech_end (silence_threshold : Nat) (isSp : Bool)
    (s : VadState) : Bool × VadState :=
  let s1 : VadState :=
    if isSp then ⟨s.speech_frames + 1, 0⟩
    else ⟨s.speech_frames, s.silence_frames + 1⟩
  if 0 < s1.speech_frames ∧ silence_threshold ≤ s1.silence_frames then
    (true, vadReset)
  else
    (false, s1)

/-- Run `detect_speech_end` over a sequence of frame classifications,
returning the list of boolean results in call order. -/
def vadRunFrom (t : Nat) : List Bool → VadState → List Bool
  | [], _ => []
  | f :: rest, s =>
    let r := detect_speech_end t f s
    r.1 :: vadRunFrom t rest r.2

/-- Run `detect_speech_end` from the reset state. -/
def vadRun (t : Nat) (frames : List Bool) : List Bool :=
  vadRunFrom t frames vadReset

/-- State after feeding a sequence of frame classifications. -/
def vadStateFrom (t : Nat) : List Bool → VadState → VadState
  | [], s => s
  | f :: rest, s => vadStateFrom t rest (detect_speech_end t f s).2

/-! ## Spec-side reference for `detect_speech_end`

The spec describes the counters in terms of the frames of the current
utterance: `speech_frame_count` is the number of frames classified as
speech since the last reset, `silence_frame_count` the number of
consecutive silent frames since the last speech frame.  We realise that
description literally on the list of classifications of the current
utterance. -/

/-- Number of consecutive silent frames at the end of an utterance
segment. -/
def trailingSilence (seg : List Bool) : Nat :=
  (seg.reverse.takeWhile (fun b => !b)).length

/-- One step of the spec-worded end-of-speech detector: extend the current
utterance segment by the new frame, report end-of-speech iff the segment
contains at least one speech frame and its trailing silence has reached
the threshold, resetting the segment on a report. -/
def specStep (t : Nat) (seg : List Bool) (f : Bool) : Bool × List Bool :=
  let seg1 := seg ++ [f]
  if 0 < seg1.count true ∧ t ≤ trailingSilence seg1 then (true, [])
  else (false, seg1)

/-- Run the spec-worded detector over a classification sequence. -/
def specRunFrom (t : Nat) : List Bool → List Bool → List Bool
  | [], _ => []
  | f :: rest, seg =>
    let r := specStep t seg f
    r.1 :: specRunFrom t rest r.2

/-- Run the spec-worded detector from an empty utterance segment. -/
def specRun (t : Nat) (frames : List Bool) : List Bool :=
  specRunFrom t frames []

lemma count_true_append_true (seg : List Bool) :
    (seg ++ [true]).count true = seg.count true + 1 := by
  simp [List.count_append]

lemma count_true_append_false (seg : List Bool) :
    (seg ++ [false]).count true = seg.count true := by
  simp [List.count_append]

lemma trailingSilence_append_true (seg : List Bool) :
    trailingSilence (seg ++ [true]) = 0 := by
  simp [trailingSilence, List.reverse_append]

lemma trailingSilence_append_false (seg : List Bool) :
    trailingSilence (seg ++ [false]) = trailingSilence seg + 1 := by
  simp [trailingSilence, List.reverse_append, List.takeWhile]

lemma detect_step_true (t : Nat) (s : VadState) :
    detect_speech_end t true s =
      if 0 < s.speech_frames + 1 ∧ t ≤ 0 then (true, vadReset)
      else (false, ⟨s.speech_frames + 1, 0⟩) := by
  simp [detect_speech_end]

lemma detect_step_false (t : Nat) (s : VadState) :
    detect_speech_end t false s =
      if 0 < s.speech_frames ∧ t ≤ s.silence_frames + 1 then
        (true, vadReset)
      else (false, ⟨s.speech_frames, s.silence_frames + 1⟩) := by
  simp [detect_speech_end]

lemma specStep_true (t : Nat) (seg : List Bool) :
    specStep t seg true =
      if 0 < seg.count true + 1 ∧ t ≤ 0 then (true, [])
      else (false, seg ++ [true]) := by
  simp [specStep, count_true_append_true, trailingSilence_append_true]

lemma specStep_false (t : Nat) (seg : List Bool) :
    specStep t seg false =
      if 0 < seg.count true ∧ t ≤ trailingSilence seg + 1 then (true, [])
      else (false, seg ++ [false]) := by
  simp [specStep, count_true_append_false, trailingSilence_append_false]

lemma vadRunFrom_eq_specRunFrom (t : Nat) (frames : List Bool) :
    ∀ (seg : List Bool) (s : VadState),
      s.speech_frames = seg.count true →
      s.silence_frames = trailingSilence seg →
      vadRunFrom t frames s = specRunFrom t frames seg := by
  induction frames with
  | nil => intro seg s _ _; rfl
  | cons f rest ih =>
    intro seg s hsp hsil
    cases f with
    | true =>
      simp only [vadRunFrom, specRunFrom, detect_step_true, specStep_true]
      rw [hsp]
      by_cases hc : 0 < seg.count true + 1 ∧ t ≤ 0
      · rw [if_pos hc, if_pos hc]
        exact congrArg _ (ih [] vadReset rfl rfl)
      · rw [if_neg hc, if_neg hc]
        refine congrArg _ (ih (seg ++ [true]) _ ?_ ?_)
        · simp [count_true_append_true]
        · simp [trailingSilence_append_true]
    | false =>
      simp only [vadRunFrom, specRunFrom, detect_step_false, specStep_false]
      rw [hsp, hsil]
      by_cases hc : 0 < seg.count true ∧ t ≤ trailingSilence seg + 1
      · rw [if_pos hc, if_pos hc]
        exact congrArg _ (ih [] vadReset rfl rfl)
      · rw [if_neg hc, if_neg hc]
        refine congrArg _ (ih (seg ++ [false]) _ ?_ ?_)
        · simp [count_true_append_false, hsp]
        · simp [trailingSilence_append_false, hsil]

lemma detect_fire_resets (t : Nat) (f : Bool) (s : VadState)
    (h : (detect_speech_end t f s).1 = true) :
    (detect_speech_end t f s).2 = vadReset := by
  cases f
  · rw [detect_step_false] at h ⊢
    split at h
    · rename_i hc; rw [if_pos hc]
    · simp at h
  · rw [detect_step_true] at h ⊢
    split at h
    · rename_i hc; rw [if_pos hc]
    · simp at h

lemma vadRun_reset_on_true (t : Nat) (frames : List Bool) :
    ∀ (s : VadState) (k : Nat),
      (vadRunFrom t frames s).getD k false = true →
      vadStateFrom t (frames.take (k + 1)) s = vadReset := by
  induction frames with
  | nil => intro s k h; simp [vadRunFrom] at h
  | cons f rest ih =>
    intro s k h
    cases k with
    | zero =>
      simp only [vadRunFrom, List.getD_cons_zero] at h
      simp only [List.take_succ_cons, List.take_zero, vadStateFrom]
      rw [detect_fire_resets t f s h]
    | succ k =>
      simp only [vadRunFrom, List.getD_cons_succ] at h
      simp only [List.take_succ_cons, vadStateFrom]
      exact ih _ k h

lemma vadRun_fire_needs_speech (t : Nat) (frames : List Bool) :
    ∀ (s : VadState) (j : Nat),
      s.speech_frames = 0 →
      (vadRunFrom t frames s).getD j false = true →
      ∃ m, m ≤ j ∧ frames.getD m false = true := by
  induction frames with
  | nil => intro s j _ h; simp [vadRunFrom] at h
  | cons f rest ih =>
    intro s j hs h
    cases f with
    | true =>
      exact ⟨0, Nat.zero_le j, by simp⟩
    | false =>
      have hstep : detect_speech_end t false s =
          (false, ⟨s.speech_frames, s.silence_frames + 1⟩) := by
        rw [detect_step_false, if_neg (by rw [hs]; simp)]
      cases j with
      | zero =>
        simp only [vadRunFrom, List.getD_cons_zero, hstep] at h
        exact absurd h (by simp)
      | succ j =>
        simp only [vadRunFrom, List.getD_cons_succ, hstep] at h
        obtain ⟨m, hm, hm2⟩ :=
          ih ⟨s.speech_frames, s.silence_frames + 1⟩ j hs h
        exact ⟨m + 1, Nat.succ_le_succ hm, by simpa using hm2⟩

lemma vadRunFrom_length (t : Nat) (frames : List Bool) :
    ∀ s : VadState, (vadRunFrom t frames s).length = frames.length := by
  induction frames with
  | nil => intro s; rfl
  | cons f rest ih => intro s; simp [vadRunFrom, ih]

lemma vadRunFrom_append (t : Nat) (a b : List Bool) :
    ∀ s : VadState,
      vadRunFrom t (a ++ b) s =
        vadRunFrom t a s ++ vadRunFrom t b (vadStateFrom t a s) := by
  induction a with
  | nil => intro s; rfl
  | cons f rest ih =>
    intro s
    simp only [List.cons_append, vadRunFrom, vadStateFrom]
    exact congrArg _ (ih _)

/-- C1: `detect_speech_end`, run from the reset state over any sequence of
frame classifications, behaves exactly as the spec words it: its answers
coincide with the utterance-segment reference (`specRun`: true exactly
when the segment so far holds at least one speech frame and its trailing
silence has reached `silence_threshold`, hence false on every call before
that point); on the call that returns true the counters are back to the
initial reset state; and between two true answers a fresh speech frame
must occur, so it fires at most once per contiguous utterance. -/
theorem detect_speech_end_c1 (t : Nat) (frames : List Bool) :
    vadRun t frames = specRun t frames
    ∧ (∀ k, (vadRun t frames).getD k false = true →
        vadStateFrom t (frames.take (k + 1)) vadReset = vadReset)
    ∧ (∀ i j, i < j → (vadRun t frames).getD i false = true →
        (vadRun t frames).getD j false = true →
        ∃ m, i < m ∧ m ≤ j ∧ frames.getD m false = true) := by
  refine ⟨vadRunFrom_eq_specRunFrom t frames [] vadReset rfl rfl, ?_, ?_⟩
  · intro k h
    exact vadRun_reset_on_true t frames vadReset k h
  · intro i j hij hi hj
    have hi' : (vadRunFrom t frames vadReset).getD i false = true := hi
    have hj' : (vadRunFrom t frames vadReset).getD j false = true := hj
    have hjlen : j < frames.length := by
      by_contra hge
      rw [List.getD_eq_default _ _ (by
        rw [vadRunFrom_length]; omega)] at hj'
      exact absurd hj' (by simp)
    have hreset : vadStateFrom t (frames.take (i + 1)) vadReset = vadReset :=
      vadRun_reset_on_true t frames vadReset i hi
    have hdecomp := vadRunFrom_append t (frames.take (i + 1))
      (frames.drop (i + 1)) vadReset
    rw [List.take_append_drop] at hdecomp
    have hlen1 : (vadRunFrom t (frames.take (i + 1)) vadReset).length
        = min (i + 1) frames.length := by
      rw [vadRunFrom_length, List.length_take]
    have hile : i + 1 ≤ frames.length := by omega
    have hlen1' : (vadRunFrom t (frames.take (i + 1)) vadReset).length
        = i + 1 := by omega
    rw [hdecomp,
      List.getD_append_right _ _ _ _ (by omega), hlen1', hreset] at hj'
    obtain ⟨m, hm, hm2⟩ :=
      vadRun_fire_needs_speech t (frames.drop (i + 1)) vadReset
        (j - (i + 1)) rfl hj'
    refine ⟨i + 1 + m, by omega, by omega, ?_⟩
    have hmd : (frames.drop (i + 1)).getD m false
        = frames.getD (i + 1 + m) false := by
      rw [List.getD_eq_getElem?_getD, List.getD_eq_getElem?_getD,
        List.getElem?_drop]
    rwa [hmd] at hm2

/-- Witness for C1 at silence threshold 2 and the trace
speech, silence, silence, speech, silence, silence: it fires at calls 2
and 5, resets there, and a fresh speech frame (index 3) separates the two
fires. -/
theorem detect_speech_end_c1_witness :
    vadRun 2 [true, false, false, true, false, false]
      = specRun 2 [true, false, false, true, false, false]
    ∧ vadStateFrom 2 ([true, false, false, true, false, false].take 3)
        vadReset = vadReset
    ∧ ∃ m, 2 < m ∧ m ≤ 5
        ∧ [true, false, false, true, false, false].getD m false = true := by
  obtain ⟨h1, h2, h3⟩ :=
    detect_speech_end_c1 2 [true, false, false, true, false, false]
  exact ⟨h1, h2 2 (by decide), h3 2 5 (by decide) (by decide) (by decide)⟩

/-- C5: the embedded `VAD.__init__` rejects (with the spec's
`ConfigError`) every frame duration outside 10/20/30 ms and every sample
rate outside 8/16/32/48 kHz, whatever the other arguments; and for every
valid frame duration and sample rate it succeeds (with the default
aggressiveness 3 and any silence duration). -/
theorem vad_init_validation_c5 (sr fd : Nat) (ag : Int) (sd : Nat) :
    ((fd ∉ VALID_FRAME_DURATIONS ∨ sr ∉ VALID_SAMPLE_RATES) →
      (vad_init sr ag fd sd).isOk = false)
    ∧ (fd ∈ VALID_FRAME_DURATIONS → sr ∈ VALID_SAMPLE_RATES →
      (vad_init sr 3 fd sd).isOk = true) := by
  constructor
  · intro h
    unfold vad_init
    rcases h with h | h
    · by_cases hsr : sr ∈ VALID_SAMPLE_RATES
      · rw [if_neg (by simpa using hsr), if_pos h]; rfl
      · rw [if_pos hsr]; rfl
    · rw [if_pos h]; rfl
  · intro h1 h2
    unfold vad_init
    rw [if_neg (by simpa using h2), if_neg (by simpa using h1),
      if_neg (by simp)]
    rfl

/-- Witness for C5: frame duration 7 ms is rejected; 30 ms at 16 kHz is
accepted. -/
theorem vad_init_validation_c5_witness :
    (vad_init 16000 3 7 2000).isOk = false
    ∧ (vad_init 16000 3 30 2000).isOk = true :=
  ⟨(vad_init_validation_c5 16000 7 3 2000).1 (Or.inl (by decide)),
   (vad_init_validation_c5 16000 30 3 2000).2 (by decide) (by decide)⟩

/-- Counterexample to C6: with the valid frame duration 30 ms and the
positive silence duration 10 ms (0.01 s), construction succeeds but the
derived `silence_threshold` is 0, not ≥ 1. -/
theorem silence_threshold_c6_counterexample :
    (vad_init 16000 3 30 10).toOption.map VADConfig.silence_threshold
      = some 0 := by
  rfl

/-- C6 (amended): for every successfully constructed VAD whose silence
duration is at least one frame duration, the derived `silence_threshold`
(= silence_duration_ms / frame_duration_ms) is at least 1. -/
theorem silence_threshold_pos_c6 (sr : Nat) (ag : Int) (fd sd : Nat)
    (cfg : VADConfig) (h : vad_init sr ag fd sd = .ok cfg)
    (hsd : fd ≤ sd) : 1 ≤ cfg.silence_threshold := by
  by_cases h1 : sr ∉ VALID_SAMPLE_RATES
  · rw [vad_init, if_pos h1] at h; exact absurd h (by simp)
  by_cases h2 : fd ∉ VALID_FRAME_DURATIONS
  · rw [vad_init, if_neg h1, if_pos h2] at h; exact absurd h (by simp)
  by_cases h3 : ¬ (0 ≤ ag ∧ ag ≤ 3)
  · rw [vad_init, if_neg h1, if_neg h2, if_pos h3] at h
    exact absurd h (by simp)
  rw [vad_init, if_neg h1, if_neg h2, if_neg h3] at h
  have hcfg : cfg.silence_threshold = sd / fd := by cases h; rfl
  have hfd' : fd ∈ VALID_FRAME_DURATIONS := not_not.mp h2
  have hpos : 0 < fd := by
    have hd : fd = 10 ∨ fd = 20 ∨ fd = 30 := by
      simpa [VALID_FRAME_DURATIONS] using hfd'
    rcases hd with hfd10 | hfd20 | hfd30 <;> omega
  rw [hcfg]
  exact (Nat.one_le_div_iff hpos).mpr hsd

/-- Witness for the amended C6 at the default configuration (2 s silence,
30 ms frames, threshold 66). -/
theorem silence_threshold_pos_c6_witness :
    1 ≤ (VADConfig.mk 16000 3 30 2000 480 0 0 66).silence_threshold :=
  silence_threshold_pos_c6 16000 3 30 2000 _ rfl (by decide)

/-! ## Circular audio buffer (src/audio/capture.py)

`AudioCapture.__init__` creates `deque(maxlen=sample_rate * buffer_duration)`
and `_audio_callback` does `self.buffer.extend(audio_data)`.  A bounded
deque extended by a batch keeps exactly the last `maxlen` elements of the
concatenation, which is what `ring_extend` expresses. -/

/-- Embedding of one `_audio_callback` buffer mutation: extending a
`deque(maxlen=capacity)` keeps the last `capacity` samples of
`buffer ++ data`. -/
def ring_extend (capacity : Nat) (buffer data : List Int) : List Int :=
  let l := buffer ++ data
  l.drop (l.length - capacity)

lemma ring_extend_length (capacity : Nat) (buffer data : List Int) :
    (ring_extend capacity buffer data).length
      = min capacity (buffer.length + data.length) := by
  simp only [ring_extend, List.length_drop, List.length_append]
  omega

lemma ring_extend_suffix (capacity : Nat) (l data : List Int) :
    ring_extend capacity (l.drop (l.length - capacity)) data
      = (l ++ data).drop ((l ++ data).length - capacity) := by
  unfold ring_extend
  rw [← List.drop_append_of_le_length (Nat.sub_le l.length capacity),
    List.drop_drop]
  congr 1
  simp only [List.length_drop, List.length_append]
  omega

lemma ring_extend_fold (capacity : Nat) (chunks : List (List Int)) :
    ∀ l : List Int,
      chunks.foldl (ring_extend capacity) (l.drop (l.length - capacity)) =
        (l ++ chunks.flatten).drop ((l ++ chunks.flatten).length - capacity) := by
  induction chunks with
  | nil => intro l; simp
  | cons c rest ih =>
    intro l
    simp only [List.foldl_cons, List.flatten_cons]
    rw [ring_extend_suffix, ih (l ++ c), List.append_assoc]

/-- C3: the circular buffer never exceeds its capacity after any single
extension; after pushing any sequence of sample chunks starting from the
empty buffer, its content is exactly the most recent `capacity` samples of
everything pushed, in chronological order; in particular when more than
`capacity` samples have been pushed the length equals `capacity`. -/
theorem ring_buffer_c3 (capacity : Nat) (chunks : List (List Int)) :
    (∀ buffer data : List Int,
      (ring_extend capacity buffer data).length ≤ capacity)
    ∧ chunks.foldl (ring_extend capacity) [] =
        chunks.flatten.drop (chunks.flatten.length - capacity)
    ∧ (capacity < chunks.flatten.length →
        (chunks.foldl (ring_extend capacity) []).length = capacity) := by
  have hfold : chunks.foldl (ring_extend capacity) [] =
      chunks.flatten.drop (chunks.flatten.length - capacity) := by
    simpa using ring_extend_fold capacity chunks []
  refine ⟨?_, hfold, ?_⟩
  · intro b d; rw [ring_extend_length]; omega
  · intro h
    rw [hfold, List.length_drop]
    omega

/-- Witness for C3: capacity 2, pushing three samples leaves exactly the
last two. -/
theorem ring_buffer_c3_witness :
    ([[1, 2, 3]].foldl (ring_extend 2) []).length = 2 :=
  (ring_buffer_c3 2 [[1, 2, 3]]).2.2 (by decide)

/-! ## Assistant single-flight listening (src/main.py)

`Assistant.start_listening` is guarded by `if self.listening: return`.
The control state is embedded as the two boolean flags plus a counter of
utterance-capture episodes started (each episode is the
`capture.start()` / `_capture_with_vad()` sequence entered right after
the guard), which is how the spec suggests observing single-flight. -/

/-- Control flags of the `Assistant`, with an episode counter recording
each entry into utterance capture. -/
structure AssistantState where
  running : Bool
  listening : Bool
  episodes : Nat
  deriving Repr, DecidableEq

/-- Embedding of `Assistant.start_listening`: a no-op while already
listening, otherwise it marks the assistant as listening and starts one
capture episode. -/
def start_listening (s : AssistantState) : AssistantState :=
  if s.listening then s
  else { s with listening := true, episodes := s.episodes + 1 }

/-- Embedding of `Assistant._on_wakeword_detected`: the callback logs and
delegates to `start_listening`. -/
def on_wakeword_detected (s : AssistantState) : AssistantState :=
  start_listening s

/-- C2: a wake-word detection arriving while the assistant is already
listening leaves the state untouched: `start_listening` returns
immediately, no second concurrent capture episode is started, and the
trigger is dropped rather than queued. -/
theorem single_flight_c2 (s : AssistantState) (h : s.listening = true) :
    on_wakeword_detected s = s
    ∧ (on_wakeword_detected s).episodes = s.episodes := by
  unfold on_wakeword_detected start_listening
  rw [if_pos h]
  exact ⟨rfl, rfl⟩

/-- Witness for C2: a running, listening assistant with one episode in
flight ignores a further wake-word trigger. -/
theorem single_flight_c2_witness :
    on_wakeword_detected ⟨true, true, 1⟩ = (⟨true, true, 1⟩ : AssistantState)
    ∧ (on_wakeword_detected ⟨true, true, 1⟩).episodes = 1 :=
  single_flight_c2 ⟨true, true, 1⟩ rfl

/-! ## Speech segment extraction (src/audio/vad.py, `VAD.get_speech_frames`)

The loop walks the non-overlapping frames of the stream (the trailing
partial frame is dropped by `len // frame_size`), tracking `in_speech`
and `start_frame`, emitting `(start_frame, i)` when a run of speech
frames closes and `(start_frame, num_frames)` for a run still open at the
end. -/

/-- Loop of `get_speech_frames` over the per-frame classifications,
carrying the frame index `i`, the `in_speech` flag and `start_frame`;
segments are emitted in loop order. -/
def gsfAux : List Bool → Nat → Bool → Nat → List (Nat × Nat)
  | [], i, in_sp, start_frame => if in_sp then [(start_frame, i)] else []
  | b :: rest, i, in_sp, start_frame =>
    if b then
      gsfAux rest (i + 1) true (if in_sp then start_frame else i)
    else
      (if in_sp then [(start_frame, i)] else [])
        ++ gsfAux rest (i + 1) false start_frame

/-- Classifications of the non-overlapping frames of a stream: frame `i`
is the slice `[i * frame_size, (i+1) * frame_size)`, the trailing partial
frame being dropped by the floor division. -/
def frameClasses (classify : List Int → Bool) (frame_size : Nat)
    (audio_stream : List Int) : List Bool :=
  (List.range (audio_stream.length / frame_size)).map
    (fun i =>
      is_speech classify frame_size
        ((audio_stream.drop (i * frame_size)).take frame_size))

/-- Embedding of `VAD.get_speech_frames`. -/
def get_speech_frames (classify : List Int → Bool) (frame_size : Nat)
    (audio_stream : List Int) : List (Nat × Nat) :=
  gsfAux (frameClasses classify frame_size audio_stream) 0 false 0

/-- A maximal contiguous run of speech frames: non-empty, within bounds,
all speech inside, delimited by a silent frame (or the stream edge) on
both sides. -/
def maximalRun (bs : List Bool) (s e : Nat) : Prop :=
  s < e ∧ e ≤ bs.length
  ∧ (∀ k, s ≤ k → k < e → bs.getD k false = true)
  ∧ (s = 0 ∨ bs.getD (s - 1) false = false)
  ∧ (e = bs.length ∨ bs.getD e false = false)

lemma drop_cons_getD (bs : List Bool) (i : Nat) (b : Bool) (rest : List Bool)
    (h : bs.drop i = b :: rest) : bs.getD i false = b := by
  have h0 : (bs.drop i)[0]? = some b := by rw [h]; simp
  rw [List.getElem?_drop, Nat.add_zero] at h0
  rw [List.getD_eq_getElem?_getD, h0]
  rfl

lemma drop_cons_succ (bs : List Bool) (i : Nat) (b : Bool) (rest : List Bool)
    (h : bs.drop i = b :: rest) : bs.drop (i + 1) = rest := by
  have : bs.drop (i + 1) = (bs.drop i).drop 1 := by
    rw [List.drop_drop]
  rw [this, h]
  rfl

lemma drop_cons_lt (bs : List Bool) (i : Nat) (b : Bool) (rest : List Bool)
    (h : bs.drop i = b :: rest) : i < bs.length := by
  have := congrArg List.length h
  simp only [List.length_drop, List.length_cons] at this
  omega

lemma gsfAux_nil_true (i start : Nat) :
    gsfAux [] i true start = [(start, i)] := rfl

lemma gsfAux_nil_false (i start : Nat) :
    gsfAux [] i false start = [] := rfl

lemma gsfAux_cons_true_true (rest : List Bool) (i start : Nat) :
    gsfAux (true :: rest) i true start = gsfAux rest (i + 1) true start :=
  rfl

lemma gsfAux_cons_true_false (rest : List Bool) (i start : Nat) :
    gsfAux (true :: rest) i false start = gsfAux rest (i + 1) true i := rfl

lemma gsfAux_cons_false_true (rest : List Bool) (i start : Nat) :
    gsfAux (false :: rest) i true start
      = (start, i) :: gsfAux rest (i + 1) false start := rfl

lemma gsfAux_cons_false_false (rest : List Bool) (i start : Nat) :
    gsfAux (false :: rest) i false start
      = gsfAux rest (i + 1) false start := rfl

lemma gsfAux_lower_bound (l : List Bool) :
    ∀ (i : Nat) (in_sp : Bool) (start : Nat),
      (in_sp = true → start ≤ i) →
      ∀ p ∈ gsfAux l i in_sp start,
        (in_sp = true → start ≤ p.1) ∧ (in_sp = false → i ≤ p.1)
          ∧ i ≤ p.2 := by
  induction l with
  | nil =>
    intro i in_sp start hst p hp
    cases in_sp with
    | true =>
      rw [gsfAux_nil_true] at hp
      simp only [List.mem_singleton] at hp
      subst hp
      exact ⟨fun _ => le_refl _, by simp, le_refl _⟩
    | false =>
      rw [gsfAux_nil_false] at hp
      simp at hp
  | cons b rest ih =>
    intro i in_sp start hst p hp
    cases b with
    | true =>
      cases in_sp with
      | true =>
        rw [gsfAux_cons_true_true] at hp
        have h := ih (i + 1) true start
          (fun _ => by have := hst rfl; omega) p hp
        exact ⟨fun _ => h.1 rfl, by simp, by have := h.2.2; omega⟩
      | false =>
        rw [gsfAux_cons_true_false] at hp
        have h := ih (i + 1) true i (fun _ => by omega) p hp
        exact ⟨by simp, fun _ => h.1 rfl, by have := h.2.2; omega⟩
    | false =>
      cases in_sp with
      | true =>
        rw [gsfAux_cons_false_true] at hp
        rcases List.mem_cons.1 hp with hp | hp
        · subst hp
          exact ⟨fun _ => le_refl _, by simp, le_refl _⟩
        · have h := ih (i + 1) false start (by simp) p hp
          have h1 := h.2.1 rfl
          have h2 := h.2.2
          exact ⟨fun _ => by have := hst rfl; omega, by simp, by omega⟩
      | false =>
        rw [gsfAux_cons_false_false] at hp
        have h := ih (i + 1) false start (by simp) p hp
        have h1 := h.2.1 rfl
        have h2 := h.2.2
        exact ⟨by simp, fun _ => by omega, by omega⟩

lemma gsfAux_chain (l : List Bool) :
    ∀ (i : Nat) (in_sp : Bool) (start : Nat),
      (in_sp = true → start ≤ i) →
      List.Chain' (fun p q : Nat × Nat => p.2 < q.1)
        (gsfAux l i in_sp start) := by
  induction l with
  | nil =>
    intro i in_sp start _
    cases in_sp with
    | true => rw [gsfAux_nil_true]; exact List.chain'_singleton _
    | false => rw [gsfAux_nil_false]; exact List.chain'_nil
  | cons b rest ih =>
    intro i in_sp start hst
    cases b with
    | true =>
      cases in_sp with
      | true =>
        rw [gsfAux_cons_true_true]
        exact ih (i + 1) true start (fun _ => by have := hst rfl; omega)
      | false =>
        rw [gsfAux_cons_true_false]
        exact ih (i + 1) true i (fun _ => by omega)
    | false =>
      cases in_sp with
      | true =>
        rw [gsfAux_cons_false_true]
        refine List.chain'_cons'.2 ⟨?_, ih (i + 1) false start (by simp)⟩
        intro q hq
        have hq' : q ∈ gsfAux rest (i + 1) false start :=
          List.mem_of_mem_head? hq
        have h := gsfAux_lower_bound rest (i + 1) false start (by simp) q hq'
        have := h.2.1 rfl
        exact by omega
      | false =>
        rw [gsfAux_cons_false_false]
        exact ih (i + 1) false start (by simp)

lemma gsfAux_mem (bs : List Bool) : ∀ (l : List Bool) (i : Nat)
    (in_sp : Bool) (start : Nat), bs.drop i = l →
    (in_sp = false → i = 0 ∨ bs.getD (i - 1) false = false) →
    (in_sp = true → start < i
      ∧ (∀ k, start ≤ k → k < i → bs.getD k false = true)
      ∧ (start = 0 ∨ bs.getD (start - 1) false = false)) →
    ∀ s e, ((s, e) ∈ gsfAux l i in_sp start ↔
      (maximalRun bs s e
        ∧ (in_sp = true → (s = start ∨ i ≤ s))
        ∧ (in_sp = false → i ≤ s))) := by
  intro l
  induction l with
  | nil =>
    intro i in_sp start hl hctxf hctxt s e
    have hlen : bs.length ≤ i := by
      have := congrArg List.length hl
      simp only [List.length_drop, List.length_nil] at this
      omega
    cases in_sp with
    | true =>
      obtain ⟨h1, h2, h3⟩ := hctxt rfl
      have hi : i = bs.length := by
        by_contra hne
        have h4 : bs.getD (i - 1) false = true := h2 (i - 1) (by omega)
          (by omega)
        rw [List.getD_eq_default _ _ (by omega)] at h4
        exact absurd h4 (by simp)
      rw [gsfAux_nil_true]
      simp only [List.mem_singleton, Prod.mk.injEq]
      constructor
      · rintro ⟨rfl, rfl⟩
        refine ⟨⟨h1, by omega, fun k hk1 hk2 => h2 k hk1 hk2, h3,
          Or.inl hi⟩, fun _ => Or.inl rfl, by simp⟩
      · rintro ⟨⟨hse, hel, hint, hleft, hright⟩, hd, _⟩
        rcases hd (by trivial) with rfl | his
        · refine ⟨rfl, ?_⟩
          by_contra hne
          have helt : e < i := by omega
          have htrue : bs.getD e false = true := h2 e (by omega) helt
          rcases hright with h0 | h0
          · omega
          · rw [htrue] at h0
            exact absurd h0 (by simp)
        · omega
    | false =>
      rw [gsfAux_nil_false]
      simp only [List.not_mem_nil, false_iff]
      rintro ⟨⟨hse, hel, _, _, _⟩, _, hd⟩
      have := hd (by trivial)
      omega
  | cons b rest ih =>
    intro i in_sp start hl hctxf hctxt s e
    have hb : bs.getD i false = b := drop_cons_getD bs i b rest hl
    have hrest : bs.drop (i + 1) = rest := drop_cons_succ bs i b rest hl
    have hilen : i < bs.length := drop_cons_lt bs i b rest hl
    cases b with
    | true =>
      cases in_sp with
      | true =>
        obtain ⟨h1, h2, h3⟩ := hctxt rfl
        rw [gsfAux_cons_true_true]
        rw [ih (i + 1) true start hrest (by simp)
          (fun _ => ⟨by omega, fun k hk1 hk2 => by
            rcases Nat.lt_or_ge k i with hk | hk
            · exact h2 k hk1 hk
            · have hki : k = i := by omega
              rw [hki]; exact hb
          , h3⟩) s e]
        constructor
        · rintro ⟨hmr, hd, _⟩
          refine ⟨hmr, fun _ => ?_, by simp⟩
          rcases hd (by trivial) with h | h
          · exact Or.inl h
          · exact Or.inr (by omega)
        · rintro ⟨hmr, hd, _⟩
          refine ⟨hmr, fun _ => ?_, by simp⟩
          rcases hd (by trivial) with h | h
          · exact Or.inl h
          · rcases Nat.lt_or_ge s (i + 1) with hs | hs
            · have hsi : s = i := by omega
              obtain ⟨hse, hel, hint, hleft, hright⟩ := hmr
              rcases hleft with h0 | h0
              · omega
              · have htr : bs.getD (s - 1) false = true :=
                  h2 (s - 1) (by omega) (by omega)
                rw [htr] at h0
                exact absurd h0 (by simp)
            · exact Or.inr hs
      | false =>
        rw [gsfAux_cons_true_false]
        rw [ih (i + 1) true i hrest (by simp)
          (fun _ => ⟨by omega, fun k hk1 hk2 => by
            have hki : k = i := by omega
            rw [hki]; exact hb, hctxf rfl⟩) s e]
        constructor
        · rintro ⟨hmr, hd, _⟩
          refine ⟨hmr, by simp, fun _ => ?_⟩
          rcases hd (by trivial) with h | h
          · omega
          · omega
        · rintro ⟨hmr, _, hd⟩
          refine ⟨hmr, fun _ => ?_, by simp⟩
          have his : i ≤ s := hd (by trivial)
          rcases Nat.eq_or_lt_of_le his with h | h
          · exact Or.inl h.symm
          · exact Or.inr h
    | false =>
      have hctxf' : (false : Bool) = false →
          i + 1 = 0 ∨ bs.getD (i + 1 - 1) false = false := by
        intro _
        right
        simpa using hb
      cases in_sp with
      | true =>
        obtain ⟨h1, h2, h3⟩ := hctxt rfl
        rw [gsfAux_cons_false_true]
        simp only [List.mem_cons]
        rw [ih (i + 1) false start hrest hctxf' (by simp) s e]
        constructor
        · rintro (hp | ⟨hmr, _, hd⟩)
          · rw [Prod.mk.injEq] at hp
            obtain ⟨rfl, rfl⟩ := hp
            refine ⟨⟨h1, by omega, h2, h3, Or.inr hb⟩,
              fun _ => Or.inl rfl, by simp⟩
          · exact ⟨hmr, fun _ => Or.inr (by have := hd (by trivial); omega), by simp⟩
        · rintro ⟨hmr, hd, _⟩
          obtain ⟨hse, hel, hint, hleft, hright⟩ := hmr
          rcases hd (by trivial) with rfl | his
          · left
            rw [Prod.mk.injEq]
            refine ⟨rfl, ?_⟩
            rcases Nat.lt_trichotomy e i with h | h | h
            · have hbe : bs.getD e false = false := by
                rcases hright with h0 | h0
                · omega
                · exact h0
              have htr : bs.getD e false = true := h2 e (by omega) (by omega)
              rw [htr] at hbe
              exact absurd hbe (by simp)
            · exact h
            · have htr : bs.getD i false = true := hint i (by omega) (by omega)
              rw [hb] at htr
              exact absurd htr (by simp)
          · right
            refine ⟨⟨hse, hel, hint, hleft, hright⟩, by simp, fun _ => ?_⟩
            rcases Nat.eq_or_lt_of_le his with h | h
            · have htr : bs.getD s false = true := hint s (by omega) (by omega)
              rw [← h, hb] at htr
              exact absurd htr (by simp)
            · omega
      | false =>
        rw [gsfAux_cons_false_false]
        rw [ih (i + 1) false start hrest hctxf' (by simp) s e]
        constructor
        · rintro ⟨hmr, _, hd⟩
          exact ⟨hmr, by simp, fun _ => by have := hd (by trivial); omega⟩
        · rintro ⟨hmr, _, hd⟩
          obtain ⟨hse, hel, hint, hleft, hright⟩ := hmr
          refine ⟨⟨hse, hel, hint, hleft, hright⟩, by simp, fun _ => ?_⟩
          have his : i ≤ s := hd (by trivial)
          rcases Nat.eq_or_lt_of_le his with h | h
          · have htr : bs.getD s false = true := hint s (by omega) (by omega)
            rw [← h, hb] at htr
            exact absurd htr (by simp)
          · omega

/-- C7: `get_speech_frames` returns exactly one `(startFrame,
endFrameExclusive)` pair per maximal contiguous run of speech-classified
frames among the non-overlapping frames of the stream (trailing partial
frame dropped), with a run still open at stream end closed at the final
frame index (that is the `e = bs.length` case of `maximalRun`); and the
returned segments are pairwise disjoint and in increasing order. -/
theorem get_speech_frames_c7 (classify : List Int → Bool)
    (frame_size : Nat) (audio_stream : List Int) :
    (∀ s e : Nat,
      ((s, e) ∈ get_speech_frames classify frame_size audio_stream ↔
        maximalRun (frameClasses classify frame_size audio_stream) s e))
    ∧ List.Chain' (fun p q : Nat × Nat => p.2 < q.1)
        (get_speech_frames classify frame_size audio_stream) := by
  constructor
  · intro s e
    have h := gsfAux_mem (frameClasses classify frame_size audio_stream)
      (frameClasses classify frame_size audio_stream) 0 false 0 (by simp)
      (fun _ => Or.inl rfl) (by simp) s e
    unfold get_speech_frames
    rw [h]
    constructor
    · rintro ⟨hmr, _, _⟩; exact hmr
    · intro hmr; exact ⟨hmr, by simp, fun _ => Nat.zero_le s⟩
  · exact gsfAux_chain _ 0 false 0 (by simp)

/-- Concrete classifier for the C7 witness: a frame is speech iff its
first sample is 1. -/
def onesClassifier : List Int → Bool :=
  fun l => l.headD 0 == 1

/-- Witness for C7: on the four-sample stream 0,1,1,0 with one-sample
frames, the single returned segment (1, 3) is indeed a maximal speech
run. -/
theorem get_speech_frames_c7_witness :
    maximalRun (frameClasses onesClassifier 1 [0, 1, 1, 0]) 1 3 :=
  ((get_speech_frames_c7 onesClassifier 1 [0, 1, 1, 0]).1 1 3).mp
    (by decide)

/-! ## Utterance capture loop (src/main.py, `Assistant._capture_with_vad`)

The loop repeatedly calls `get_chunk` (a `None` result means no data this
round and the loop continues), slices each returned chunk into VAD-sized
frames padding the final short slice, appends speech-classified frames to
`audio_chunks`, counts consecutive silence in its own `silence_count`,
and stops (clearing `listening`) once something was accumulated and the
silence count reaches `max_silence`.  The sequence of `get_chunk` results
is the loop's environment; the list ending models the
`listening and running` flags being cleared externally. -/

/-- Mutable loop state of `_capture_with_vad`. -/
structure CaptureState where
  audio_chunks : List (List Int)
  silence_count : Nat
  deriving Repr, DecidableEq

/-- Outcome after the loop: hand the concatenated audio to
`_process_audio` (which calls the transcription engine), or report "no
speech detected" and speak the fallback without transcribing. -/
inductive CaptureOutcome where
  | transcribe (audio : List Int)
  | noSpeech
  deriving Repr, DecidableEq

/-- Slices `audio[i:i+chunk_size]` of the inner for-loop, the last short
slice zero-padded on the right (the loop pads any frame shorter than
`chunk_size`). -/
def chunkFramesGo (chunk_size : Nat) : Nat → List Int → List (List Int)
  | 0, _ => []
  | Nat.succ fuel, audio =>
    if chunk_size = 0 ∨ audio = [] then []
    else
      (audio.take chunk_size
        ++ List.replicate (chunk_size - audio.length) 0)
        :: chunkFramesGo chunk_size fuel (audio.drop chunk_size)

/-- The slicing loop itself; each iteration consumes at least one sample,
so `audio.length` bounds the iteration count. -/
def chunkFrames (chunk_size : Nat) (audio : List Int) :
    List (List Int) :=
  chunkFramesGo chunk_size audio.length audio

/-- Inner for-loop of `_capture_with_vad` over the frames of one chunk:
append speech frames, count silence, and break out (returning `true`)
when the end-of-speech condition `audio_chunks` nonempty and
`silence_count ≥ max_silence` fires. -/
def processFrames (classifyFrame : List Int → Bool) (max_silence : Nat) :
    List (List Int) → CaptureState → CaptureState × Bool
  | [], st => (st, false)
  | frame :: rest, st =>
    let st1 : CaptureState :=
      if classifyFrame frame then ⟨st.audio_chunks ++ [frame], 0⟩
      else ⟨st.audio_chunks, st.silence_count + 1⟩
    if 0 < st1.audio_chunks.length ∧ max_silence ≤ st1.silence_count then
      (st1, true)
    else
      processFrames classifyFrame max_silence rest st1

/-- Outer while-loop of `_capture_with_vad` over the successive
`get_chunk` results; the boolean reports whether the loop exited through
the end-of-speech condition. -/
def runCaptureLoop (classifyFrame : List Int → Bool)
    (chunk_size max_silence : Nat) :
    List (Option (List Int)) → CaptureState → CaptureState × Bool
  | [], st => (st, false)
  | none :: rest, st =>
    runCaptureLoop classifyFrame chunk_size max_silence rest st
  | some audio :: rest, st =>
    let r := processFrames classifyFrame max_silence
      (chunkFrames chunk_size audio) st
    if r.2 then r
    else runCaptureLoop classifyFrame chunk_size max_silence rest r.1

/-- Embedding of `Assistant._capture_with_vad`: run the loop from a fresh
state, then either transcribe the concatenated accumulated frames or
report "no speech detected"; the boolean is the end-of-speech exit flag. -/
def capture_with_vad (classify : List Int → Bool)
    (chunk_size max_silence : Nat) (reads : List (Option (List Int))) :
    CaptureOutcome × Bool :=
  let r := runCaptureLoop (is_speech classify chunk_size) chunk_size
    max_silence reads ⟨[], 0⟩
  (if r.1.audio_chunks = [] then .noSpeech
   else .transcribe r.1.audio_chunks.flatten, r.2)

/-- All VAD-sized frames the loop would derive from the chunk reads, in
capture order. -/
def allFrames (chunk_size : Nat) (reads : List (Option (List Int))) :
    List (List Int) :=
  ((reads.filterMap id).map (chunkFrames chunk_size)).flatten

lemma processFrames_cons_speech (cf : List Int → Bool) (ms : Nat)
    (f : List Int) (rest : List (List Int)) (st : CaptureState)
    (hc : cf f = true) :
    processFrames cf ms (f :: rest) st =
      if 0 < (st.audio_chunks ++ [f]).length ∧ ms ≤ 0 then
        ((⟨st.audio_chunks ++ [f], 0⟩ : CaptureState), true)
      else processFrames cf ms rest ⟨st.audio_chunks ++ [f], 0⟩ := by
  simp only [processFrames]
  rw [if_pos hc]

lemma processFrames_cons_silence (cf : List Int → Bool) (ms : Nat)
    (f : List Int) (rest : List (List Int)) (st : CaptureState)
    (hc : cf f = false) :
    processFrames cf ms (f :: rest) st =
      if 0 < st.audio_chunks.length ∧ ms ≤ st.silence_count + 1 then
        ((⟨st.audio_chunks, st.silence_count + 1⟩ : CaptureState), true)
      else
        processFrames cf ms rest ⟨st.audio_chunks, st.silence_count + 1⟩ := by
  simp only [processFrames]
  rw [if_neg (by simp [hc] : ¬ cf f = true)]

lemma processFrames_spec (cf : List Int → Bool) (ms : Nat)
    (frames : List (List Int)) :
    ∀ st : CaptureState,
      ∃ k, k ≤ frames.length
        ∧ (processFrames cf ms frames st).1.audio_chunks
            = st.audio_chunks ++ (frames.take k).filter cf
        ∧ ((processFrames cf ms frames st).2 = false →
            k = frames.length) := by
  induction frames with
  | nil =>
    intro st
    exact ⟨0, by simp, by simp [processFrames], fun _ => rfl⟩
  | cons f rest ih =>
    intro st
    by_cases hc : cf f = true
    · rw [processFrames_cons_speech cf ms f rest st hc]
      by_cases hfire : 0 < (st.audio_chunks ++ [f]).length ∧ ms ≤ 0
      · refine ⟨1, by simp, ?_, ?_⟩
        · rw [if_pos hfire]
          simp [List.filter_cons, hc]
        · rw [if_pos hfire]
          intro hf
          exact absurd hf (by simp)
      · obtain ⟨k, hk, hval, hnf⟩ := ih ⟨st.audio_chunks ++ [f], 0⟩
        refine ⟨k + 1, by simpa using hk, ?_, ?_⟩
        · rw [if_neg hfire, hval]
          simp [List.filter_cons, hc, List.take_succ_cons]
        · rw [if_neg hfire]
          intro hf
          simp [hnf hf]
    · have hc' : cf f = false := by
        cases hcc : cf f
        · rfl
        · exact absurd hcc hc
      rw [processFrames_cons_silence cf ms f rest st hc']
      by_cases hfire : 0 < st.audio_chunks.length
          ∧ ms ≤ st.silence_count + 1
      · refine ⟨1, by simp, ?_, ?_⟩
        · rw [if_pos hfire]
          simp [List.filter_cons, hc']
        · rw [if_pos hfire]
          intro hf
          exact absurd hf (by simp)
      · obtain ⟨k, hk, hval, hnf⟩ :=
          ih ⟨st.audio_chunks, st.silence_count + 1⟩
        refine ⟨k + 1, by simpa using hk, ?_, ?_⟩
        · rw [if_neg hfire, hval]
          simp [List.filter_cons, hc', List.take_succ_cons]
        · rw [if_neg hfire]
          intro hf
          simp [hnf hf]

lemma processFrames_fired_nonempty (cf : List Int → Bool) (ms : Nat)
    (frames : List (List Int)) :
    ∀ st : CaptureState,
      (processFrames cf ms frames st).2 = true →
      (processFrames cf ms frames st).1.audio_chunks ≠ [] := by
  induction frames with
  | nil => intro st h; exact absurd h (by simp [processFrames])
  | cons f rest ih =>
    intro st h
    by_cases hc : cf f = true
    · rw [processFrames_cons_speech cf ms f rest st hc] at h ⊢
      by_cases hfire : 0 < (st.audio_chunks ++ [f]).length ∧ ms ≤ 0
      · rw [if_pos hfire]
        simp
      · rw [if_neg hfire] at h ⊢
        exact ih _ h
    · have hc' : cf f = false := by
        cases hcc : cf f
        · rfl
        · exact absurd hcc hc
      rw [processFrames_cons_silence cf ms f rest st hc'] at h ⊢
      by_cases hfire : 0 < st.audio_chunks.length
          ∧ ms ≤ st.silence_count + 1
      · rw [if_pos hfire]
        exact List.ne_nil_of_length_pos hfire.1
      · rw [if_neg hfire] at h ⊢
        exact ih _ h

lemma take_append_exact {α : Type} (l1 l2 : List α) (k : Nat) :
    (l1 ++ l2).take (l1.length + k) = l1 ++ l2.take k := by
  induction l1 with
  | nil => simp
  | cons a rest ih => simp [List.take_succ_cons, Nat.succ_add, ih]

lemma runCaptureLoop_spec (cf : List Int → Bool)
    (cs ms : Nat) (reads : List (Option (List Int))) :
    ∀ st : CaptureState,
      ∃ k, k ≤ (allFrames cs reads).length
        ∧ (runCaptureLoop cf cs ms reads st).1.audio_chunks
            = st.audio_chunks ++ ((allFrames cs reads).take k).filter cf
        ∧ ((runCaptureLoop cf cs ms reads st).2 = false →
            k = (allFrames cs reads).length) := by
  induction reads with
  | nil =>
    intro st
    exact ⟨0, by simp [allFrames], by simp [runCaptureLoop, allFrames],
      fun _ => by simp [allFrames]⟩
  | cons o rest ih =>
    intro st
    cases o with
    | none =>
      obtain ⟨k, hk, hval, hnf⟩ := ih st
      have hall : allFrames cs (none :: rest) = allFrames cs rest := by
        simp [allFrames]
      refine ⟨k, by rw [hall]; exact hk, ?_, ?_⟩
      · simp only [runCaptureLoop, hall]
        exact hval
      · intro hf
        rw [hall]
        exact hnf hf
    | some audio =>
      have hall : allFrames cs (some audio :: rest)
          = chunkFrames cs audio ++ allFrames cs rest := by
        simp [allFrames]
      obtain ⟨k1, hk1, hval1, hnf1⟩ :=
        processFrames_spec cf ms (chunkFrames cs audio) st
      by_cases hfired :
          (processFrames cf ms (chunkFrames cs audio) st).2 = true
      · refine ⟨k1, ?_, ?_, ?_⟩
        · rw [hall]
          simp only [List.length_append]
          omega
        · simp only [runCaptureLoop, if_pos hfired, hall]
          rw [hval1, List.take_append_of_le_length hk1]
        · intro hf
          simp only [runCaptureLoop, if_pos hfired] at hf
          rw [hfired] at hf
          exact absurd hf (by simp)
      · have hfired' :
            (processFrames cf ms (chunkFrames cs audio) st).2 = false := by
          cases hcc : (processFrames cf ms (chunkFrames cs audio) st).2
          · rfl
          · exact absurd hcc hfired
        have hk1' : k1 = (chunkFrames cs audio).length := hnf1 hfired'
        obtain ⟨k2, hk2, hval2, hnf2⟩ :=
          ih (processFrames cf ms (chunkFrames cs audio) st).1
        have hchunks1 :
            (processFrames cf ms (chunkFrames cs audio) st).1.audio_chunks
              = st.audio_chunks ++ (chunkFrames cs audio).filter cf := by
          rw [hval1, hk1', List.take_length]
        refine ⟨(chunkFrames cs audio).length + k2, ?_, ?_, ?_⟩
        · rw [hall]
          simp only [List.length_append]
          omega
        · have hni : ¬ ((processFrames cf ms
              (chunkFrames cs audio) st).2 = true) := by
            rw [hfired']; simp
          simp only [runCaptureLoop, if_neg hni]
          rw [hval2, hchunks1, hall, take_append_exact,
            List.filter_append, List.append_assoc]
        · intro hf
          have hni : ¬ ((processFrames cf ms
              (chunkFrames cs audio) st).2 = true) := by
            rw [hfired']; simp
          simp only [runCaptureLoop, if_neg hni] at hf
          have := hnf2 hf
          rw [hall]
          simp only [List.length_append]
          omega

lemma runCaptureLoop_fired_nonempty (cf : List Int → Bool)
    (cs ms : Nat) (reads : List (Option (List Int))) :
    ∀ st : CaptureState,
      (runCaptureLoop cf cs ms reads st).2 = true →
      (runCaptureLoop cf cs ms reads st).1.audio_chunks ≠ [] := by
  induction reads with
  | nil => intro st h; exact absurd h (by simp [runCaptureLoop])
  | cons o rest ih =>
    intro st h
    cases o with
    | none =>
      simp only [runCaptureLoop] at h ⊢
      exact ih st h
    | some audio =>
      by_cases hfired :
          (processFrames cf ms (chunkFrames cs audio) st).2 = true
      · simp only [runCaptureLoop, if_pos hfired] at h ⊢
        exact processFrames_fired_nonempty cf ms
          (chunkFrames cs audio) st hfired
      · have hni : ¬ ((processFrames cf ms
            (chunkFrames cs audio) st).2 = true) := hfired
        simp only [runCaptureLoop, if_neg hni] at h ⊢
        exact ih _ h

/-- C4: whenever the utterance-capture loop exits through the
end-of-speech condition, the audio handed to `_process_audio` (and so to
the transcription engine) is exactly the concatenation, in capture order,
of the frames classified as speech among the frames the loop processed (a
prefix of the frame stream) — silence frames are never appended; and
whenever the loop finishes with no accumulated speech frame the outcome
is the "no speech detected" fallback, with no transcription call. -/
theorem capture_with_vad_c4 (classify : List Int → Bool)
    (chunk_size max_silence : Nat) (reads : List (Option (List Int))) :
    ∃ k,
      (runCaptureLoop (is_speech classify chunk_size) chunk_size
          max_silence reads ⟨[], 0⟩).1.audio_chunks
        = ((allFrames chunk_size reads).take k).filter
            (is_speech classify chunk_size)
      ∧ ((capture_with_vad classify chunk_size max_silence reads).2 = true →
          (capture_with_vad classify chunk_size max_silence reads).1
            = .transcribe ((((allFrames chunk_size reads).take k).filter
                (is_speech classify chunk_size)).flatten))
      ∧ ((runCaptureLoop (is_speech classify chunk_size) chunk_size
            max_silence reads ⟨[], 0⟩).1.audio_chunks = [] →
          (capture_with_vad classify chunk_size max_silence reads).1
            = .noSpeech) := by
  obtain ⟨k, hk, hval, hnf⟩ := runCaptureLoop_spec
    (is_speech classify chunk_size) chunk_size max_silence reads ⟨[], 0⟩
  have hval' : (runCaptureLoop (is_speech classify chunk_size) chunk_size
      max_silence reads ⟨[], 0⟩).1.audio_chunks
        = ((allFrames chunk_size reads).take k).filter
            (is_speech classify chunk_size) := by
    rw [hval]
    rfl
  refine ⟨k, hval', ?_, ?_⟩
  · intro hfired
    have hne : (runCaptureLoop (is_speech classify chunk_size) chunk_size
        max_silence reads ⟨[], 0⟩).1.audio_chunks ≠ [] :=
      runCaptureLoop_fired_nonempty (is_speech classify chunk_size)
        chunk_size max_silence reads ⟨[], 0⟩ hfired
    show (if _ = [] then CaptureOutcome.noSpeech else _) = _
    rw [if_neg hne, hval']
  · intro hnil
    show (if _ = [] then CaptureOutcome.noSpeech else _) = _
    rw [if_pos hnil]

/-- Witness for C4: with one-sample frames and threshold 2, an all-silent
read produces the "no speech" fallback, while a speech-then-silence read
fires end-of-speech and transcribes exactly the accumulated speech
frames. -/
theorem capture_with_vad_c4_witness :
    (capture_with_vad onesClassifier 1 2 [some [0, 0]]).1
      = CaptureOutcome.noSpeech
    ∧ (capture_with_vad onesClassifier 1 1 [some [1, 0]]).1
        = CaptureOutcome.transcribe
            ((runCaptureLoop (is_speech onesClassifier 1) 1 1
              [some [1, 0]] ⟨[], 0⟩).1.audio_chunks.flatten) := by
  constructor
  · obtain ⟨k, h1, h2, h3⟩ :=
      capture_with_vad_c4 onesClassifier 1 2 [some [0, 0]]
    exact h3 (by decide)
  · obtain ⟨k, h1, h2, h3⟩ :=
      capture_with_vad_c4 onesClassifier 1 1 [some [1, 0]]
    have h := h2 (by decide)
    rw [← h1] at h
    exact h

/-! ## Blocking chunk read (src/audio/capture.py, `AudioCapture.get_chunk`)

`get_chunk(timeout)` first starts the capture stream when it is not
running (`start` re-raises its failure, outside the try block), then
wraps only `stream.read` in try/except and returns `None` on any read
failure.  Nothing in the body uses `timeout`; the blocking `stream.read`
is not bounded by it.  The stream read result is the environment: `.ok`
carries data, `.error` a raised read exception. -/

/-- Embedding of `AudioCapture.get_chunk`.  The outer `Except` is an
exception escaping the call (only a `start` failure when the stream was
not running); the inner `Option` is the documented return, `none` for a
caught read failure. -/
def get_chunk (is_running : Bool) (start_ok : Bool) (timeout : Int)
    (read_result : Except Unit (List Int)) :
    Except Unit (Option (List Int)) :=
  if ¬ is_running ∧ ¬ start_ok then .error ()
  else
    match read_result with
    | .ok data => .ok (some data)
    | .error _ => .ok none

/-- C8 evaluation: `get_chunk` never raises for a failed read (it returns
`None`), but its behaviour is completely independent of the caller's
`timeout` — the parameter is dead, so the timeout cannot bound how long
the underlying blocking read waits, contradicting the claim and the
function's own docstring. -/
theorem get_chunk_timeout_dead_c8 (is_running start_ok : Bool)
    (t1 t2 : Int) (read_result : Except Unit (List Int)) :
    get_chunk is_running start_ok t1 read_result
      = get_chunk is_running start_ok t2 read_result
    ∧ get_chunk true start_ok t1 (.error ()) = .ok none := by
  constructor
  · rfl
  · simp [get_chunk]

/-! ## Wake-word detectors (src/engines/wakeword.py)

`WakeWordDetector` (Porcupine backend) owns a keyword list, a detection
counter dict and the engine handle; `add_keyword` / `remove_keyword`
validate, then tear the engine down, mutate the list and re-run
`_initialize`.  The filesystem and the Porcupine engine are external and
become the environment `PorcupineEnv`; the engine handle is an abstract
generation number so that teardown/recreation is observable.
`VoskWakeWordDetector` keeps plain lowercase keyword strings and never
touches its engine on add/remove. -/

/-- One configured Porcupine keyword: model path, sensitivity and
display name (sensitivity values are opaque to the verified logic). -/
structure Keyword where
  path : String
  sensitivity : Int
  name : String
  deriving Repr, DecidableEq

/-- External environment of the Porcupine detector: which paths exist on
disk and whether `pvporcupine.create` succeeds on a keyword list. -/
structure PorcupineEnv where
  path_exists : String → Bool
  create_ok : List Keyword → Bool

/-- State of a `WakeWordDetector`: keyword list, per-name detection
counters, the engine handle (`none` = torn down, `some g` = generation
`g`), the `_initialized` flag and the generation counter. -/
structure WakeWordDetector where
  keywords : List Keyword
  detections : List (String × Nat)
  porcupine : Option Nat
  initialized : Bool
  gen : Nat
  deriving Repr, DecidableEq

/-- Last path component, as `os.path.basename` on a slash path. -/
def basename (p : String) : String :=
  (p.splitOn "/").getLastD ""

/-- Keyword name derived from a `.ppn` path,
`os.path.basename(path).replace(".ppn", "")`. -/
def ppnName (p : String) : String :=
  (basename p).replace ".ppn" ""

/-- Effective keyword name: the Python `name or basename(path)...`
evaluates the derived name when `name` is `None` or empty. -/
def kwName (name : Option String) (path : String) : String :=
  match name with
  | some n => if n = "" then ppnName path else n
  | none => ppnName path

/-- Python dict assignment `d[k] = v` on an association list. -/
def dict_set {α : Type} (d : List (String × α)) (k : String) (v : α) :
    List (String × α) :=
  if d.any (fun p => p.1 == k) then
    d.map (fun p => if p.1 == k then (k, v) else p)
  else d ++ [(k, v)]

/-- Python `d.pop(k, None)` on an association list. -/
def dict_pop {α : Type} (d : List (String × α)) (k : String) :
    List (String × α) :=
  d.filter (fun p => p.1 != k)

/-- Embedding of `WakeWordDetector._initialize`: nothing happens without
keywords or when a model file is missing; otherwise the engine is created
(a fresh generation) when the external create succeeds. -/
def wwd_initialize (env : PorcupineEnv) (d : WakeWordDetector) :
    WakeWordDetector :=
  if d.keywords = [] then d
  else if d.keywords.any (fun kw => ¬ env.path_exists kw.path) then d
  else if env.create_ok d.keywords then
    { d with porcupine := some (d.gen + 1), gen := d.gen + 1,
             initialized := true }
  else d

/-- Embedding of `WakeWordDetector.add_keyword`: missing file or
duplicate name fail fast with no state change; otherwise tear down the
engine, append the keyword, zero its counter and re-initialize, returning
the resulting availability. -/
def add_keyword (env : PorcupineEnv) (d : WakeWordDetector)
    (path : String) (sensitivity : Int) (name : Option String) :
    WakeWordDetector × Bool :=
  if ¬ env.path_exists path then (d, false)
  else
    let kw_name := kwName name path
    if (d.keywords.map Keyword.name).contains kw_name then (d, false)
    else
      let d1 : WakeWordDetector :=
        { d with porcupine := none, initialized := false }
      let d2 : WakeWordDetector :=
        { d1 with
          keywords := d1.keywords ++ [⟨path, sensitivity, kw_name⟩],
          detections := dict_set d1.detections kw_name 0 }
      let d3 := wwd_initialize env d2
      (d3, d3.initialized)

/-- Embedding of `WakeWordDetector.remove_keyword`: refuse to remove the
only keyword, fail on an unknown name, otherwise tear down, remove,
forget the counter and re-initialize. -/
def remove_keyword (env : PorcupineEnv) (d : WakeWordDetector)
    (name : String) : WakeWordDetector × Bool :=
  if d.keywords.length ≤ 1 then (d, false)
  else
    match d.keywords.find? (fun kw => kw.name == name) with
    | none => (d, false)
    | some kw =>
      let d1 : WakeWordDetector :=
        { d with porcupine := none, initialized := false }
      let d2 : WakeWordDetector :=
        { d1 with keywords := d1.keywords.erase kw,
                  detections := dict_pop d1.detections name }
      let d3 := wwd_initialize env d2
      (d3, d3.initialized)

/-- State of a `VoskWakeWordDetector`: lowercase keyword strings,
detection counters, per-keyword last-detection times and the
`_initialized` flag (its engine is not touched by add/remove). -/
structure VoskWakeWordDetector where
  keywords : List String
  detections : List (String × Nat)
  last_detection_time : List (String × Int)
  initialized : Bool
  deriving Repr, DecidableEq

/-- Embedding of `VoskWakeWordDetector.add_keyword`; `normalize` stands
for Python's `str.lower().strip()` (an opaque library normalisation).
Duplicate names are rejected with no state change, otherwise the keyword
is appended with fresh counters. -/
def vosk_add_keyword (normalize : String → String)
    (d : VoskWakeWordDetector) (keyword : String) :
    VoskWakeWordDetector × Bool :=
  let k := normalize keyword
  if d.keywords.contains k then (d, false)
  else
    ({ d with keywords := d.keywords ++ [k],
              detections := dict_set d.detections k 0,
              last_detection_time := dict_set d.last_detection_time k 0 },
     true)

/-- Embedding of `VoskWakeWordDetector.remove_keyword` (`normalize` as
in `vosk_add_keyword`): refuse to remove the only keyword; unknown names
fail; otherwise drop the keyword and its counters. -/
def vosk_remove_keyword (normalize : String → String)
    (d : VoskWakeWordDetector) (keyword : String) :
    VoskWakeWordDetector × Bool :=
  if d.keywords.length ≤ 1 then (d, false)
  else
    let k := normalize keyword
    if d.keywords.contains k then
      ({ d with keywords := d.keywords.erase k,
                detections := dict_pop d.detections k,
                last_detection_time := dict_pop d.last_detection_time k },
       true)
    else (d, false)

/-- C9: adding a keyword whose (given or path-derived) identifier is
already configured returns `False` and leaves the whole detector state —
keyword list, detection counters and the running engine handle —
untouched, for the Porcupine detector; likewise for the Vosk detector
with its normalised keyword strings. -/
theorem add_keyword_duplicate_c9 :
    (∀ (env : PorcupineEnv) (d : WakeWordDetector) (path : String)
      (sensitivity : Int) (name : Option String),
      kwName name path ∈ d.keywords.map Keyword.name →
      add_keyword env d path sensitivity name = (d, false))
    ∧ (∀ (normalize : String → String) (d : VoskWakeWordDetector)
      (keyword : String),
      normalize keyword ∈ d.keywords →
      vosk_add_keyword normalize d keyword = (d, false)) := by
  constructor
  · intro env d path sensitivity name hmem
    unfold add_keyword
    by_cases hex : env.path_exists path = true
    · rw [if_neg (by simp [hex])]
      rw [if_pos (by simpa using hmem)]
    · rw [if_pos (by simp [hex])]
  · intro normalize d keyword hmem
    unfold vosk_add_keyword
    rw [if_pos (by simpa using hmem)]

/-- Witness for C9: a detector configured with the keyword "asistente"
rejects a duplicate add on both backends. -/
theorem add_keyword_duplicate_c9_witness :
    add_keyword ⟨fun _ => true, fun _ => true⟩
      ⟨[⟨"/m/a.ppn", 1, "asistente"⟩], [("asistente", 3)], some 1, true, 1⟩
      "/m/b.ppn" 1 (some "asistente")
      = (⟨[⟨"/m/a.ppn", 1, "asistente"⟩], [("asistente", 3)],
          some 1, true, 1⟩, false)
    ∧ vosk_add_keyword id
        ⟨["asistente"], [("asistente", 0)], [("asistente", 0)], true⟩
        "asistente"
      = (⟨["asistente"], [("asistente", 0)], [("asistente", 0)], true⟩,
         false) :=
  ⟨add_keyword_duplicate_c9.1 ⟨fun _ => true, fun _ => true⟩
      ⟨[⟨"/m/a.ppn", 1, "asistente"⟩], [("asistente", 3)], some 1, true, 1⟩
      "/m/b.ppn" 1 (some "asistente") (by decide),
   add_keyword_duplicate_c9.2 id
      ⟨["asistente"], [("asistente", 0)], [("asistente", 0)], true⟩
      "asistente" (by decide)⟩

/-- C10: on both backends, a detector holding exactly one keyword rejects
every `remove_keyword` call — whatever the name, including the sole
configured keyword — leaving the state unchanged, so the detector can
never be emptied through `remove_keyword`. -/
theorem remove_keyword_single_c10 :
    (∀ (env : PorcupineEnv) (d : WakeWordDetector) (name : String),
      d.keywords.length = 1 → remove_keyword env d name = (d, false))
    ∧ (∀ (normalize : String → String) (d : VoskWakeWordDetector)
      (keyword : String),
      d.keywords.length = 1 →
      vosk_remove_keyword normalize d keyword = (d, false)) := by
  constructor
  · intro env d name hlen
    unfold remove_keyword
    rw [if_pos (by omega)]
  · intro normalize d keyword hlen
    unfold vosk_remove_keyword
    rw [if_pos (by omega)]

/-- Witness for C10: single-keyword detectors reject removal of their own
sole keyword on both backends. -/
theorem remove_keyword_single_c10_witness :
    remove_keyword ⟨fun _ => true, fun _ => true⟩
      ⟨[⟨"/m/a.ppn", 1, "asistente"⟩], [("asistente", 3)], some 1, true, 1⟩
      "asistente"
      = (⟨[⟨"/m/a.ppn", 1, "asistente"⟩], [("asistente", 3)],
          some 1, true, 1⟩, false)
    ∧ vosk_remove_keyword id
        ⟨["asistente"], [("asistente", 0)], [("asistente", 0)], true⟩
        "asistente"
      = (⟨["asistente"], [("asistente", 0)], [("asistente", 0)], true⟩,
         false) :=
  ⟨remove_keyword_single_c10.1 ⟨fun _ => true, fun _ => true⟩
      ⟨[⟨"/m/a.ppn", 1, "asistente"⟩], [("asistente", 3)], some 1, true, 1⟩
      "asistente" (by decide),
   remove_keyword_single_c10.2 id
      ⟨["asistente"], [("asistente", 0)], [("asistente", 0)], true⟩
      "asistente" (by decide)⟩

end Kubik
